import Mathlib

/-!
Verification of the MSES airfoil-geometry utilities in `PJ6/mses.py`:
`FindLE`, `MsesSplit`, `MsesInterp` and `MsesMerge`.

Sequences of floating point numbers are modelled as `List ℚ` (the code only
compares, slices and linearly interpolates, so rationals are an exact model).
A Python run-time error (`IndexError`, `TypeError`, a numpy broadcast
`ValueError`) and the implicit `None` returned by a function that falls off
the end are both modelled by `none` in an `Option` result.
-/

/-- Model of `FindLE(X)`: walk `X[1:]` with `enumerate`, remembering the
previous value; return the enumeration index `i` of the first element with
`x >= xold`, and `none` when the loop finishes without returning (Python then
implicitly returns `None`; on an empty input Python raises `IndexError` at
`X[0]`, also modelled by `none`). -/
def FindLE : List ℚ → Option ℕ
  | [] => none
  | [_] => none
  | x0 :: x1 :: rest =>
      if x0 ≤ x1 then some 0 else (FindLE (x1 :: rest)).map (· + 1)

/-- Model of `MsesSplit(x, y)`: with `iLE = FindLE(x)`, return
`up = y[iLE::-1]` (the first `iLE+1` entries of `y`, reversed, with Python's
slice clamping) and `lo = y[iLE+1:]`.  When `FindLE` returns `None`, Python
raises `TypeError` while computing `iLE+1`, modelled by `none`. -/
def MsesSplit (x y : List ℚ) : Option (List ℚ × List ℚ) :=
  (FindLE x).map fun i => ((y.take (i + 1)).reverse, y.drop (i + 1))

/-- Model of one `numpy.interp` lookup once the query `q` is at or past the
sample `(x0, y0)`: advance while the next sample's abscissa is `≤ q` (so a run
of equal abscissae resolves to the rightmost one, as numpy's binary search
does); at an exact node hit return the node ordinate, past the last sample
clamp to its ordinate, otherwise interpolate linearly between the bracketing
samples. -/
def interpGo (q x0 y0 : ℚ) : List (ℚ × ℚ) → ℚ
  | [] => y0
  | (x1, y1) :: rest =>
      if q < x1 then
        if q = x0 then y0 else y0 + (y1 - y0) * (q - x0) / (x1 - x0)
      else interpGo q x1 y1 rest

/-- Model of `numpy.interp` at a single query point `q` against the sample
pairs `ps` (numpy requires the abscissae to be non-decreasing): queries left of
the first sample clamp to its ordinate. -/
def interpOne (q : ℚ) : List (ℚ × ℚ) → ℚ
  | [] => 0
  | (x0, y0) :: rest => if q < x0 then y0 else interpGo q x0 y0 rest

/-- Model of `numpy.interp(xout, xp, fp)`, including numpy's input checks:
it raises `ValueError` when `fp` and `xp` are not of the same length, and
`ValueError` when the array of sample points `xp` is empty (both modelled by
`none`); otherwise it evaluates pointwise over `xout`. -/
def npInterp (xout xp fp : List ℚ) : Option (List ℚ) :=
  if fp.length ≠ xp.length then none
  else if xp.length = 0 then none
  else some (xout.map fun q => interpOne q (xp.zip fp))

/-- Model of `MsesInterp(xout, xmses, ymses)`: split `xmses` against itself and
`ymses` against `xmses`, then resample each surface onto `xout` with
`numpy.interp`; a `ValueError` raised by either `numpy.interp` call
propagates (modelled by `none`). -/
def MsesInterp (xout xmses ymses : List ℚ) : Option (List ℚ × List ℚ) :=
  match MsesSplit xmses xmses, MsesSplit xmses ymses with
  | some (xup, xlo), some (yup, ylo) =>
      match npInterp xout xup yup, npInterp xout xlo ylo with
      | some yu, some yl => some (yu, yl)
      | _, _ => none
  | _, _ => none

/-- Model of the numpy slice assignment `target[a:b] = src` onto a slice of
length `n`: an exact-length assignment, or a scalar broadcast from a length-1
source; any other source length raises a broadcast `ValueError`, modelled by
`none`. -/
def sliceAssign (n : ℕ) (src : List ℚ) : Option (List ℚ) :=
  if src.length = n then some src
  else if src.length = 1 then some (List.replicate n (src.headD 0))
  else none

/-- Model of the assembly part of `MsesMerge` (after the de-duplication step):
`x[:n1], y[:n1] = xup[-1::-1], yup[-1::-1]` and `x[n1:], y[n1:] = xlo, ylo`
into zero vectors of length `n = n1 + len(xlo)`, `n1 = len(xup)`.  The `x`
assignments always fit exactly; the `y` assignments follow numpy broadcast
rules for the given slice lengths. -/
def mergeAssemble (xlo xup ylo yup : List ℚ) : Option (List ℚ × List ℚ) :=
  match sliceAssign xup.length yup.reverse, sliceAssign xlo.length ylo with
  | some yu, some yl => some (xup.reverse ++ xlo, yu ++ yl)
  | _, _ => none

/-- Model of `MsesMerge(xlo, xup, ylo, yup)`, including the short-circuit
evaluation of `xlo[0] == xup[0] and ylo[0] == 0 and yup[0] == 0` (an
out-of-range `[0]` raises `IndexError`, modelled by `none`); when the
condition holds, the first point of the (possibly trimmed) lower surface is
dropped before assembly. -/
def MsesMerge (xlo xup ylo yup : List ℚ) : Option (List ℚ × List ℚ) :=
  match xlo, xup with
  | xl0 :: xlt, xu0 :: _ =>
      if xl0 = xu0 then
        match ylo with
        | [] => none
        | yl0 :: ylt =>
            if yl0 = 0 then
              match yup with
              | [] => none
              | yu0 :: _ =>
                  if yu0 = 0 then mergeAssemble xlt xup ylt yup
                  else mergeAssemble (xl0 :: xlt) xup (yl0 :: ylt) yup
            else mergeAssemble (xl0 :: xlt) xup (yl0 :: ylt) yup
      else mergeAssemble (xl0 :: xlt) xup ylo yup
  | _, _ => none

/-- Reading of the specification's contract for `FindLeadingEdge`, used to
compare against the code: scan for the smallest index `i`, taken as a 1-based
offset into the tail `X[1:]` (so that the designated element is `X[i]` in
whole-array indexing), such that `X[i] ≥ X[i-1]`. -/
def specFindLEGo (xold : ℚ) (i : ℕ) : List ℚ → Option ℕ
  | [] => none
  | x :: xs => if xold ≤ x then some i else specFindLEGo x (i + 1) xs

/-- Top level of the specification reading of `FindLeadingEdge`: the returned
index counts positions of the tail `X[1:]` starting from 1. -/
def specFindLE : List ℚ → Option ℕ
  | [] => none
  | x :: xs => specFindLEGo x 1 xs

/-- Characterisation of `FindLE`: it returns `some i` exactly when `X[i+1]` is
the first element of the tail that is `≥` its predecessor, i.e. `i` is the
0-based offset into `X[1:]` at which the sequence stops strictly decreasing. -/
theorem FindLE_eq_some_iff : ∀ (x : List ℚ) (i : ℕ),
    FindLE x = some i ↔
      i + 1 < x.length ∧ x.getD i 0 ≤ x.getD (i + 1) 0 ∧
        ∀ j, j < i → x.getD (j + 1) 0 < x.getD j 0
  | [], i => by simp [FindLE]
  | [a], i => by simp [FindLE]
  | a :: b :: t, i => by
      by_cases hab : a ≤ b
      · cases i with
        | zero =>
            simp only [FindLE, if_pos hab, List.length_cons, List.getD_cons_zero,
              List.getD_cons_succ]
            constructor
            · intro _
              exact ⟨by omega, hab, fun j hj => absurd hj (Nat.not_lt_zero j)⟩
            · intro _; trivial
        | succ k =>
            simp only [FindLE, if_pos hab]
            constructor
            · intro h; exact absurd (Option.some.inj h) (by omega)
            · rintro ⟨-, -, h3⟩
              have := h3 0 (Nat.succ_pos k)
              simp only [List.getD_cons_zero, List.getD_cons_succ] at this
              exact absurd hab (not_le.mpr this)
      · have hba : b < a := not_le.mp hab
        cases i with
        | zero =>
            simp only [FindLE, if_neg hab]
            constructor
            · intro h
              rcases Option.map_eq_some'.mp h with ⟨k, -, hk⟩
              exact absurd hk (by omega)
            · rintro ⟨-, h2, -⟩
              simp only [List.getD_cons_zero, List.getD_cons_succ] at h2
              exact absurd h2 (not_le.mpr hba)
        | succ k =>
            have IH := FindLE_eq_some_iff (b :: t) k
            simp only [FindLE, if_neg hab]
            constructor
            · intro h
              rcases Option.map_eq_some'.mp h with ⟨k2, hk2, hplus⟩
              have hkk : k2 = k := by omega
              subst hkk
              rcases IH.mp hk2 with ⟨h1, h2, h3⟩
              refine ⟨?_, ?_, ?_⟩
              · simpa [Nat.succ_lt_succ_iff] using h1
              · simpa [List.getD_cons_succ] using h2
              · intro j hj
                cases j with
                | zero =>
                    simpa [List.getD_cons_zero, List.getD_cons_succ] using hba
                | succ j2 =>
                    have := h3 j2 (by omega)
                    simpa [List.getD_cons_succ] using this
            · rintro ⟨h1, h2, h3⟩
              have hfr : FindLE (b :: t) = some k := by
                refine IH.mpr ⟨?_, ?_, ?_⟩
                · simpa [Nat.succ_lt_succ_iff] using h1
                · simpa [List.getD_cons_succ] using h2
                · intro j hj
                  have := h3 (j + 1) (by omega)
                  simpa [List.getD_cons_succ] using this
              rw [hfr]; rfl

/-- Helper: a successful `FindLE` index leaves at least one element after the
returned position. -/
theorem FindLE_lt_length {x : List ℚ} {i : ℕ} (h : FindLE x = some i) :
    i + 1 < x.length :=
  ((FindLE_eq_some_iff x i).mp h).1

/-- Helper: the head of a dropped suffix is the corresponding entry of the
original list. -/
theorem headD_drop (l : List ℚ) (n : ℕ) : (l.drop n).headD 0 = l.getD n 0 := by
  simp [List.headD_eq_head?, List.head?_drop, List.getD_eq_getElem?_getD]

/-- Helper: the head of a reversed prefix is the last entry of that prefix. -/
theorem headD_reverse_take (l : List ℚ) (i : ℕ) (h : i < l.length) :
    ((l.take (i + 1)).reverse).headD 0 = l.getD i 0 := by
  rw [List.headD_eq_head?, List.head?_reverse, List.getLast?_eq_getElem?]
  have hlen : (l.take (i + 1)).length = i + 1 := by
    simp [List.length_take]; omega
  rw [hlen]
  simp only [Nat.add_sub_cancel]
  rw [List.getElem?_take_of_lt (Nat.lt_succ_self i)]
  simp [List.getD_eq_getElem?_getD]

/-- Helper: full characterisation of `MsesMerge` on non-empty surfaces whose
paired sequences have equal lengths: the upper surface is re-reversed, the
lower surface is appended unchanged, except that its first point is dropped
exactly when it coincides in `x` with the upper surface's first point and both
`y`-values there are zero. -/
theorem MsesMerge_eq_of_lengths (xlo xup ylo yup : List ℚ)
    (h1 : xlo ≠ []) (h2 : xup ≠ [])
    (h3 : ylo.length = xlo.length) (h4 : yup.length = xup.length) :
    MsesMerge xlo xup ylo yup =
      if xlo.headD 0 = xup.headD 0 ∧ ylo.headD 0 = 0 ∧ yup.headD 0 = 0
      then some (xup.reverse ++ xlo.tail, yup.reverse ++ ylo.tail)
      else some (xup.reverse ++ xlo, yup.reverse ++ ylo) := by
  obtain ⟨xl0, xlt, rfl⟩ := List.exists_cons_of_ne_nil h1
  obtain ⟨xu0, xut, rfl⟩ := List.exists_cons_of_ne_nil h2
  obtain ⟨yl0, ylt, rfl⟩ := List.exists_cons_of_ne_nil
    (show ylo ≠ [] by intro hy; subst hy; simp at h3)
  obtain ⟨yu0, yut, rfl⟩ := List.exists_cons_of_ne_nil
    (show yup ≠ [] by intro hy; subst hy; simp at h4)
  have h4t : yut.length = xut.length := by
    simpa using h4
  have e1 : sliceAssign (xu0 :: xut).length ((yu0 :: yut).reverse) =
      some ((yu0 :: yut).reverse) := by
    simp [sliceAssign, h4t]
  have h3t : ylt.length = xlt.length := by
    simpa using h3
  have e2 : sliceAssign xlt.length ylt = some ylt := by
    simp [sliceAssign, h3t]
  have e3 : sliceAssign (xl0 :: xlt).length (yl0 :: ylt) = some (yl0 :: ylt) := by
    simp [sliceAssign, h3t]
  by_cases hc1 : xl0 = xu0
  · by_cases hc2 : yl0 = 0
    · by_cases hc3 : yu0 = 0
      · simp only [MsesMerge, if_pos hc1, if_pos hc2, if_pos hc3,
          mergeAssemble, e1, e2, List.headD_cons, List.tail_cons]
        rw [if_pos ⟨hc1, hc2, hc3⟩]
      · simp only [MsesMerge, if_pos hc1, if_pos hc2, if_neg hc3,
          mergeAssemble, e1, e3, List.headD_cons]
        rw [if_neg (by tauto)]
    · simp only [MsesMerge, if_pos hc1, if_neg hc2,
        mergeAssemble, e1, e3, List.headD_cons]
      rw [if_neg (by tauto)]
  · simp only [MsesMerge, if_neg hc1,
      mergeAssemble, e1, e3, List.headD_cons]
    rw [if_neg (by tauto)]

/-- Helper: once the query sits exactly on the current base sample and every
later abscissa is strictly larger, `interpGo` returns the base ordinate. -/
theorem interpGo_at_base (q y0 : ℚ) (ps : List (ℚ × ℚ))
    (h : ∀ p ∈ ps, q < p.1) : interpGo q q y0 ps = y0 := by
  cases ps with
  | nil => rfl
  | cons p rest =>
      obtain ⟨x1, y1⟩ := p
      have hlt := h (x1, y1) (List.mem_cons_self _ _)
      simp [interpGo, hlt]

/-- Helper: `interpGo` returns the ordinate of sample `k` when queried at its
abscissa, for strictly increasing abscissae past the current base. -/
theorem interpGo_at_node : ∀ (ps : List (ℚ × ℚ)) (x0 y0 : ℚ) (k : ℕ) (pk : ℚ × ℚ),
    ps.Pairwise (fun p p2 => p.1 < p2.1) →
    ps.get? k = some pk →
    interpGo pk.1 x0 y0 ps = pk.2
  | [], _, _, k, pk, _, hk => by simp at hk
  | (x1, y1) :: rest, x0, y0, 0, pk, hpw, hk => by
      have hpk : pk = (x1, y1) := by
        have := hk; simp at this; exact this.symm
      subst hpk
      have hrest : ∀ p ∈ rest, x1 < p.1 := (List.pairwise_cons.mp hpw).1
      simp only [interpGo]
      rw [if_neg (lt_irrefl x1)]
      exact interpGo_at_base _ _ _ hrest
  | (x1, y1) :: rest, x0, y0, k + 1, pk, hpw, hk => by
      have hk2 : rest.get? k = some pk := by simpa using hk
      have hx1pk : x1 < pk.1 := (List.pairwise_cons.mp hpw).1 pk (List.get?_mem hk2)
      simp only [interpGo]
      rw [if_neg (not_lt.mpr (le_of_lt hx1pk))]
      exact interpGo_at_node rest x1 y1 k pk (List.pairwise_cons.mp hpw).2 hk2

/-- Helper: `interpOne` returns the sample ordinate when queried exactly at a
sample abscissa, for strictly increasing abscissae. -/
theorem interpOne_at_node (ps : List (ℚ × ℚ)) (k : ℕ) (pk : ℚ × ℚ)
    (hpw : ps.Pairwise (fun p p2 => p.1 < p2.1))
    (hk : ps.get? k = some pk) :
    interpOne pk.1 ps = pk.2 := by
  cases ps with
  | nil => simp at hk
  | cons p rest =>
      obtain ⟨x0, y0⟩ := p
      cases k with
      | zero =>
          have hpk : pk = (x0, y0) := by
            have := hk; simp at this; exact this.symm
          subst hpk
          simp only [interpOne]
          rw [if_neg (lt_irrefl x0)]
          exact interpGo_at_base _ _ _ (List.pairwise_cons.mp hpw).1
      | succ k2 =>
          have hk2 : rest.get? k2 = some pk := by simpa using hk
          have hx0 : x0 < pk.1 := (List.pairwise_cons.mp hpw).1 pk (List.get?_mem hk2)
          simp only [interpOne]
          rw [if_neg (not_lt.mpr (le_of_lt hx0))]
          exact interpGo_at_node rest x0 y0 k2 pk (List.pairwise_cons.mp hpw).2 hk2

/-- Helper: `numpy.interp` passes its input checks exactly when the sample
abscissae and ordinates have equal lengths and are non-empty; it then maps the
pointwise evaluation over the query points. -/
theorem npInterp_some (xout xp fp : List ℚ)
    (hlen : fp.length = xp.length) (hne : xp ≠ []) :
    npInterp xout xp fp = some (xout.map fun q => interpOne q (xp.zip fp)) := by
  have hpos : 0 < xp.length := List.length_pos.mpr hne
  simp only [npInterp, hlen]
  rw [if_neg (by omega), if_neg (by omega)]

/-- Helper: the pointwise evaluation of a surface at its own strictly
increasing nodes returns its own ordinates. -/
theorem interp_map_self (xp fp : List ℚ)
    (hxp : xp.Pairwise (· < ·)) (hlen : fp.length = xp.length) :
    (xp.map fun q => interpOne q (xp.zip fp)) = fp := by
  have hzf : List.map Prod.fst (xp.zip fp) = xp :=
    List.map_fst_zip xp fp (le_of_eq hlen.symm)
  have hpw : (xp.zip fp).Pairwise (fun p p2 => p.1 < p2.1) := by
    rw [← hzf] at hxp
    exact List.pairwise_map.mp hxp
  apply List.ext_getElem?
  intro n
  rw [List.getElem?_map]
  by_cases hn : n < xp.length
  · have hnf : n < fp.length := by omega
    have hx : xp[n]? = some (xp[n]) := List.getElem?_eq_getElem hn
    have hf : fp[n]? = some (fp[n]) := List.getElem?_eq_getElem hnf
    have hnz : n < (xp.zip fp).length := by rw [List.length_zip]; omega
    have hz : (xp.zip fp)[n]? = some ((xp.zip fp)[n]) := List.getElem?_eq_getElem hnz
    have hzv : (xp.zip fp)[n] = (xp[n], fp[n]) := List.getElem_zip
    rw [hx, hf]
    have hnode := interpOne_at_node (xp.zip fp) n ((xp[n]), (fp[n])) hpw
      (by rw [List.get?_eq_getElem?, hz, hzv])
    simpa using hnode
  · have hx : xp[n]? = none := List.getElem?_eq_none (by omega)
    have hf : fp[n]? = none := List.getElem?_eq_none (by omega)
    rw [hx, hf]
    rfl

/-- Helper: resampling a non-empty surface at its own strictly increasing
nodes returns its own ordinates (node-exactness of the `numpy.interp`
model). -/
theorem npInterp_self (xp fp : List ℚ)
    (hxp : xp.Pairwise (· < ·)) (hlen : fp.length = xp.length)
    (hne : xp ≠ []) :
    npInterp xp xp fp = some fp := by
  rw [npInterp_some xp xp fp hlen hne, interp_map_self xp fp hxp hlen]

/-- Helper: adjacent-pair property of a `Chain'` read through `getD`. -/
theorem chain'_getD {R : ℚ → ℚ → Prop} {X : List ℚ} (h : X.Chain' R) {j : ℕ}
    (hj : j + 1 < X.length) : R (X.getD j 0) (X.getD (j + 1) 0) := by
  have hg := List.chain'_iff_get.mp h j (by omega)
  rw [List.getD_eq_getElem?_getD, List.getD_eq_getElem?_getD,
    List.getElem?_eq_getElem (show j < X.length by omega), List.getElem?_eq_getElem hj]
  simpa [List.get_eq_getElem] using hg

/-- Helper: `getD` of a prefix agrees with the original list. -/
theorem getD_take {x : List ℚ} {n j : ℕ} (hj : j < n) :
    (x.take n).getD j 0 = x.getD j 0 := by
  rw [List.getD_eq_getElem?_getD, List.getD_eq_getElem?_getD,
    List.getElem?_take_of_lt hj]

/-- Helper: `getD` of a suffix shifts the index. -/
theorem getD_drop (x : List ℚ) (n j : ℕ) :
    (x.drop n).getD j 0 = x.getD (n + j) 0 := by
  rw [List.getD_eq_getElem?_getD, List.getD_eq_getElem?_getD, List.getElem?_drop]

/-- Helper: shifting the running counter of the specification scan by one
shifts its answer by one. -/
theorem specFindLEGo_shift : ∀ (l : List ℚ) (xold : ℚ) (i : ℕ),
    specFindLEGo xold (i + 1) l = (specFindLEGo xold i l).map (· + 1)
  | [], _, _ => rfl
  | x :: xs, xold, i => by
      by_cases h : xold ≤ x
      · simp [specFindLEGo, h]
      · simp only [specFindLEGo, if_neg h]
        exact specFindLEGo_shift xs x (i + 1)

/-- Helper: the code's scan is the specification scan started at counter 0. -/
theorem FindLE_cons : ∀ (xs : List ℚ) (x : ℚ),
    FindLE (x :: xs) = specFindLEGo x 0 xs
  | [], x => rfl
  | b :: t, x => by
      by_cases h : x ≤ b
      · simp [FindLE, specFindLEGo, h]
      · simp only [FindLE, if_neg h, specFindLEGo]
        rw [specFindLEGo_shift, FindLE_cons t b]

/-- C3 (counterexample): on `X = [2,1,2]`, reading the returned index as a
1-based offset into the tail as the specification states picks `X[1] = 1`,
which is strictly below its predecessor `X[0] = 2`; the first index satisfying
the spec's condition `X[i] ≥ X[i-1]` is 2, while `FindLE` returns 1. -/
theorem FindLE_one_based_counterexample :
    FindLE [(2:ℚ), 1, 2] = some 1 ∧ specFindLE [(2:ℚ), 1, 2] = some 2 ∧
      ¬ ([(2:ℚ), 1, 2].getD 0 0 ≤ [(2:ℚ), 1, 2].getD 1 0) := by
  refine ⟨by decide, by decide, by decide⟩

/-- C3 (amended): `FindLE` returns the smallest 0-based offset into the tail
`X[1:]` at which the sequence stops strictly decreasing — exactly one less
than the smallest 1-based tail offset `i` with `X[i] ≥ X[i-1]` described by
the specification (`specFindLE`). -/
theorem FindLE_offset_from_spec (X : List ℚ) (i : ℕ) :
    FindLE X = some i ↔ specFindLE X = some (i + 1) := by
  cases X with
  | nil => simp [FindLE, specFindLE]
  | cons x xs =>
      simp only [specFindLE]
      rw [show (1 : ℕ) = 0 + 1 from rfl, specFindLEGo_shift, FindLE_cons]
      constructor
      · intro h; rw [h]; rfl
      · intro h
        rcases Option.map_eq_some'.mp h with ⟨k, hk, hkk⟩
        have hik : k = i := by omega
        subst hik
        exact hk

/-- C3 (witness): the relation instantiated on `[2,1,2]`. -/
theorem FindLE_offset_from_spec_witness :
    FindLE [(2:ℚ), 1, 2] = some 1 ↔ specFindLE [(2:ℚ), 1, 2] = some 2 :=
  FindLE_offset_from_spec [(2:ℚ), 1, 2] 1

/-- C4 (counterexample): `FindLE` does not return 3 on the spec's synthetic
curve `[5,4,3,2,1,2,3,4,5]`. -/
theorem FindLE_synthetic_counterexample :
    FindLE [(5:ℚ), 4, 3, 2, 1, 2, 3, 4, 5] ≠ some 3 := by decide

/-- C4 (amended): on the synthetic curve `[5,4,3,2,1,2,3,4,5]`, `FindLE`
returns index 4, which is the 0-based position of the value 1, the minimum of
the sequence. -/
theorem FindLE_synthetic_value :
    FindLE [(5:ℚ), 4, 3, 2, 1, 2, 3, 4, 5] = some 4 ∧
      [(5:ℚ), 4, 3, 2, 1, 2, 3, 4, 5].getD 4 0 = 1 ∧
      [(5:ℚ), 4, 3, 2, 1, 2, 3, 4, 5].min? = some 1 := by
  refine ⟨by decide, by decide, by decide⟩

/-- C5 (counterexample): on `[1,2,3,4,5]` the code does not signal any error:
the very first step is non-decreasing, so `FindLE` immediately returns
index 0. -/
theorem FindLE_increasing_counterexample :
    FindLE [(1:ℚ), 2, 3, 4, 5] = some 0 := by decide

/-- C5 (amended): no `MalformedCurveError` exists in the code.  On a non-empty
strictly decreasing input (which includes every one-point input) `FindLE`
falls off its loop and returns `None` rather than raising, and on the strictly
increasing `[1,2,3,4,5]` it returns index 0 rather than raising. -/
theorem FindLE_malformed_behaviour (X : List ℚ) (_hne : X ≠ [])
    (h : X.Chain' (· > ·)) :
    FindLE X = none ∧ FindLE [(1:ℚ), 2, 3, 4, 5] = some 0 := by
  refine ⟨?_, by decide⟩
  cases hf : FindLE X with
  | none => rfl
  | some i =>
      rcases (FindLE_eq_some_iff X i).mp hf with ⟨h1, h2, -⟩
      exact absurd h2 (not_le.mpr (chain'_getD h h1))

/-- C5 (witness): the amended behaviour on the strictly decreasing `[3,2,1]`. -/
theorem FindLE_malformed_behaviour_witness :
    FindLE [(3:ℚ), 2, 1] = none ∧ FindLE [(1:ℚ), 2, 3, 4, 5] = some 0 :=
  FindLE_malformed_behaviour [(3:ℚ), 2, 1] (by decide)
    (by norm_num [List.chain'_cons, List.chain'_singleton])

/-- C2: whenever `FindLE` finds a split index on `x` and `y` has the same
length as `x`, `MsesSplit` returns two surfaces whose lengths sum to the
length of `y` and which together are a permutation of `y` (no element
duplicated, none dropped). -/
theorem MsesSplit_length_conservation (x y : List ℚ) (i : ℕ)
    (hx : FindLE x = some i) (hlen : y.length = x.length) :
    MsesSplit x y = some ((y.take (i + 1)).reverse, y.drop (i + 1)) ∧
    ((y.take (i + 1)).reverse).length + (y.drop (i + 1)).length = y.length ∧
    (((y.take (i + 1)).reverse) ++ y.drop (i + 1)).Perm y := by
  refine ⟨by simp [MsesSplit, hx], ?_, ?_⟩
  · simp only [List.length_reverse, List.length_take, List.length_drop]
    omega
  · have hperm : (((y.take (i + 1)).reverse) ++ y.drop (i + 1)).Perm
        ((y.take (i + 1)) ++ y.drop (i + 1)) :=
      (List.reverse_perm (y.take (i + 1))).append_right _
    rwa [List.take_append_drop] at hperm

/-- C2 (witness): conservation on the curve `x = [2,1,2]`, `y = [4,5,6]`. -/
theorem MsesSplit_length_conservation_witness :
    MsesSplit [(2:ℚ), 1, 2] [(4:ℚ), 5, 6] =
        some ((([(4:ℚ), 5, 6].take 2).reverse), [(4:ℚ), 5, 6].drop 2) ∧
    ((([(4:ℚ), 5, 6].take 2).reverse)).length +
        ([(4:ℚ), 5, 6].drop 2).length = [(4:ℚ), 5, 6].length ∧
    (((([(4:ℚ), 5, 6].take 2).reverse)) ++ [(4:ℚ), 5, 6].drop 2).Perm
        [(4:ℚ), 5, 6] :=
  MsesSplit_length_conservation [(2:ℚ), 1, 2] [(4:ℚ), 5, 6] 1 (by decide) (by decide)

/-- C8: on a valid MSES abscissa sequence — strictly decreasing up to the
leading-edge position `m`, then non-decreasing to the trailing edge — `FindLE`
returns `m`, and both surfaces produced by `MsesSplit x x` are monotonic
ascending (the reversal of the upper slice restores ascending order). -/
theorem MsesSplit_monotone (x : List ℚ) (m : ℕ) (hm : m + 1 < x.length)
    (hup : (x.take (m + 1)).Chain' (· > ·))
    (hlo : (x.drop m).Chain' (· ≤ ·)) :
    FindLE x = some m ∧
    MsesSplit x x = some ((x.take (m + 1)).reverse, x.drop (m + 1)) ∧
    ((x.take (m + 1)).reverse).Chain' (· ≤ ·) ∧
    (x.drop (m + 1)).Chain' (· ≤ ·) := by
  have hfle : FindLE x = some m := by
    apply (FindLE_eq_some_iff x m).mpr
    refine ⟨hm, ?_, ?_⟩
    · have h0 := chain'_getD hlo (j := 0)
        (by simp only [List.length_drop]; omega)
      rwa [getD_drop, getD_drop] at h0
    · intro j hj
      have hgt := chain'_getD hup (j := j)
        (by simp only [List.length_take]; omega)
      rwa [getD_take (by omega), getD_take (by omega)] at hgt
  refine ⟨hfle, by simp [MsesSplit, hfle], ?_, ?_⟩
  · rw [List.chain'_reverse]
    exact hup.imp fun a b hab => le_of_lt hab
  · have htail := hlo.tail
    rwa [List.tail_drop] at htail

/-- C8 (witness): monotone surfaces for the curve `[2,1,2]`, `m = 1`. -/
theorem MsesSplit_monotone_witness :
    FindLE [(2:ℚ), 1, 2] = some 1 ∧
    MsesSplit [(2:ℚ), 1, 2] [(2:ℚ), 1, 2] =
        some ((([(2:ℚ), 1, 2].take 2).reverse), [(2:ℚ), 1, 2].drop 2) ∧
    ((([(2:ℚ), 1, 2].take 2).reverse)).Chain' (· ≤ ·) ∧
    ([(2:ℚ), 1, 2].drop 2).Chain' (· ≤ ·) :=
  MsesSplit_monotone [(2:ℚ), 1, 2] 1 (by decide)
    (by norm_num [List.chain'_cons, List.chain'_singleton])
    (by norm_num [List.chain'_cons, List.chain'_singleton])

/-- C6: on non-empty surfaces with equal paired lengths, `MsesMerge` returns
the upper surface reversed back to MSES order followed by the lower surface
unchanged, dropping the lower surface's first point exactly when it coincides
in `x` with the upper surface's first point and both `y`-values there are
exactly zero; consequently the output length is
`length xup + length xlo`, minus one exactly in the de-duplication case.
(The `[0]` accesses in the source presuppose non-empty `xlo` and `xup`.) -/
theorem MsesMerge_structure (xlo xup ylo yup : List ℚ)
    (h1 : xlo ≠ []) (h2 : xup ≠ [])
    (h3 : ylo.length = xlo.length) (h4 : yup.length = xup.length) :
    MsesMerge xlo xup ylo yup =
      (if xlo.headD 0 = xup.headD 0 ∧ ylo.headD 0 = 0 ∧ yup.headD 0 = 0
       then some (xup.reverse ++ xlo.tail, yup.reverse ++ ylo.tail)
       else some (xup.reverse ++ xlo, yup.reverse ++ ylo)) ∧
    (MsesMerge xlo xup ylo yup).map (fun p => p.1.length) =
      some (if xlo.headD 0 = xup.headD 0 ∧ ylo.headD 0 = 0 ∧ yup.headD 0 = 0
            then xup.length + xlo.length - 1
            else xup.length + xlo.length) := by
  have hmain := MsesMerge_eq_of_lengths xlo xup ylo yup h1 h2 h3 h4
  refine ⟨hmain, ?_⟩
  rw [hmain]
  have hpos : 0 < xlo.length := List.length_pos.mpr h1
  by_cases hc : xlo.headD 0 = xup.headD 0 ∧ ylo.headD 0 = 0 ∧ yup.headD 0 = 0
  · rw [if_pos hc, if_pos hc]
    simp only [Option.map_some', List.length_append, List.length_reverse,
      List.length_tail, Option.some.injEq]
    omega
  · rw [if_neg hc, if_neg hc]
    simp [List.length_append]

/-- C6 (witness): merge with the de-duplication triggering, on
`xlo = [1,3]`, `xup = [1,5]`, `ylo = [0,2]`, `yup = [0,4]`. -/
theorem MsesMerge_structure_witness :
    MsesMerge [(1:ℚ), 3] [(1:ℚ), 5] [(0:ℚ), 2] [(0:ℚ), 4] =
      (if ([(1:ℚ), 3].headD 0 = [(1:ℚ), 5].headD 0 ∧
            [(0:ℚ), 2].headD 0 = 0 ∧ [(0:ℚ), 4].headD 0 = 0)
       then some ([(1:ℚ), 5].reverse ++ [(1:ℚ), 3].tail,
                  [(0:ℚ), 4].reverse ++ [(0:ℚ), 2].tail)
       else some ([(1:ℚ), 5].reverse ++ [(1:ℚ), 3],
                  [(0:ℚ), 4].reverse ++ [(0:ℚ), 2])) ∧
    (MsesMerge [(1:ℚ), 3] [(1:ℚ), 5] [(0:ℚ), 2] [(0:ℚ), 4]).map
        (fun p => p.1.length) =
      some (if ([(1:ℚ), 3].headD 0 = [(1:ℚ), 5].headD 0 ∧
            [(0:ℚ), 2].headD 0 = 0 ∧ [(0:ℚ), 4].headD 0 = 0)
            then [(1:ℚ), 5].length + [(1:ℚ), 3].length - 1
            else [(1:ℚ), 5].length + [(1:ℚ), 3].length) :=
  MsesMerge_structure [(1:ℚ), 3] [(1:ℚ), 5] [(0:ℚ), 2] [(0:ℚ), 4]
    (by decide) (by decide) (by decide) (by decide)

/-- C1: for a curve with a leading edge (`FindLE x = some i`) and matching
lengths, merging the split surfaces reproduces `(x, y)` exactly, except that
when the de-duplication rule triggers (the lower surface's first point
coincides in `x` with the upper surface's first point and both `y`-values
there are exactly zero) the single redundant point at position `i+1` is
removed. -/
theorem MsesSplit_MsesMerge_roundTrip (x y : List ℚ) (i : ℕ)
    (hx : FindLE x = some i) (hlen : y.length = x.length) :
    MsesSplit x x = some ((x.take (i + 1)).reverse, x.drop (i + 1)) ∧
    MsesSplit x y = some ((y.take (i + 1)).reverse, y.drop (i + 1)) ∧
    MsesMerge (x.drop (i + 1)) ((x.take (i + 1)).reverse)
        (y.drop (i + 1)) ((y.take (i + 1)).reverse) =
      (if x.getD (i + 1) 0 = x.getD i 0 ∧ y.getD (i + 1) 0 = 0 ∧ y.getD i 0 = 0
       then some (x.eraseIdx (i + 1), y.eraseIdx (i + 1))
       else some (x, y)) := by
  have hib := FindLE_lt_length hx
  have hiy : i + 1 < y.length := by omega
  refine ⟨by simp [MsesSplit, hx], by simp [MsesSplit, hx], ?_⟩
  have hxlo : x.drop (i + 1) ≠ [] := by
    intro hcon
    rw [List.drop_eq_nil_iff] at hcon
    omega
  have hxup : (x.take (i + 1)).reverse ≠ [] := by
    simp only [ne_eq, List.reverse_eq_nil_iff, List.take_eq_nil_iff]
    push_neg
    exact ⟨by omega, by intro hcon; subst hcon; simp at hib⟩
  have hl1 : (y.drop (i + 1)).length = (x.drop (i + 1)).length := by
    simp [hlen]
  have hl2 : ((y.take (i + 1)).reverse).length =
      ((x.take (i + 1)).reverse).length := by
    simp [List.length_take, hlen]
  rw [MsesMerge_eq_of_lengths _ _ _ _ hxlo hxup hl1 hl2]
  rw [headD_drop, headD_drop, headD_reverse_take _ _ (by omega),
    headD_reverse_take _ _ (by omega)]
  by_cases hc : x.getD (i + 1) 0 = x.getD i 0 ∧ y.getD (i + 1) 0 = 0 ∧
      y.getD i 0 = 0
  · rw [if_pos hc, if_pos hc]
    have ex : ((x.take (i + 1)).reverse).reverse ++ (x.drop (i + 1)).tail =
        x.eraseIdx (i + 1) := by
      rw [List.reverse_reverse, List.tail_drop, List.eraseIdx_eq_take_drop_succ]
    have ey : ((y.take (i + 1)).reverse).reverse ++ (y.drop (i + 1)).tail =
        y.eraseIdx (i + 1) := by
      rw [List.reverse_reverse, List.tail_drop, List.eraseIdx_eq_take_drop_succ]
    rw [ex, ey]
  · rw [if_neg hc, if_neg hc]
    have ex : ((x.take (i + 1)).reverse).reverse ++ x.drop (i + 1) = x := by
      rw [List.reverse_reverse, List.take_append_drop]
    have ey : ((y.take (i + 1)).reverse).reverse ++ y.drop (i + 1) = y := by
      rw [List.reverse_reverse, List.take_append_drop]
    rw [ex, ey]

/-- C1 (witness): round trip with de-duplication on `x = [2,1,1,2]`,
`y = [3,0,0,5]` (leading edge at `i = 1`, shared zero-`y` point dropped). -/
theorem MsesSplit_MsesMerge_roundTrip_witness :
    MsesSplit [(2:ℚ), 1, 1, 2] [(2:ℚ), 1, 1, 2] =
        some ((([(2:ℚ), 1, 1, 2].take 2).reverse), [(2:ℚ), 1, 1, 2].drop 2) ∧
    MsesSplit [(2:ℚ), 1, 1, 2] [(3:ℚ), 0, 0, 5] =
        some ((([(3:ℚ), 0, 0, 5].take 2).reverse), [(3:ℚ), 0, 0, 5].drop 2) ∧
    MsesMerge ([(2:ℚ), 1, 1, 2].drop 2) (([(2:ℚ), 1, 1, 2].take 2).reverse)
        ([(3:ℚ), 0, 0, 5].drop 2) (([(3:ℚ), 0, 0, 5].take 2).reverse) =
      (if [(2:ℚ), 1, 1, 2].getD 2 0 = [(2:ℚ), 1, 1, 2].getD 1 0 ∧
            [(3:ℚ), 0, 0, 5].getD 2 0 = 0 ∧ [(3:ℚ), 0, 0, 5].getD 1 0 = 0
       then some ([(2:ℚ), 1, 1, 2].eraseIdx 2, [(3:ℚ), 0, 0, 5].eraseIdx 2)
       else some ([(2:ℚ), 1, 1, 2], [(3:ℚ), 0, 0, 5])) :=
  MsesSplit_MsesMerge_roundTrip [(2:ℚ), 1, 1, 2] [(3:ℚ), 0, 0, 5] 1
    (by decide) (by decide)

/-- C7 (counterexample): the MSES-ordered curve `x = [2,1,1,1,2]`,
`y = [0,0,1,2,0]` (strictly decreasing, then non-decreasing, with a plateau)
splits into lower surface nodes `[1,1,2]` with ordinates `[1,2,0]`, but
`MsesInterp` evaluated at those very nodes returns `[2,2,0]` for the lower
surface — not the original ordinates, because the duplicated abscissa resolves
to the rightmost sample. -/
theorem MsesInterp_plateau_counterexample :
    MsesSplit [(2:ℚ), 1, 1, 1, 2] [(2:ℚ), 1, 1, 1, 2] =
        some ([1, 2], [1, 1, 2]) ∧
    MsesSplit [(2:ℚ), 1, 1, 1, 2] [(0:ℚ), 0, 1, 2, 0] =
        some ([0, 0], [1, 2, 0]) ∧
    (MsesInterp [(1:ℚ), 1, 2] [(2:ℚ), 1, 1, 1, 2] [(0:ℚ), 0, 1, 2, 0]).map
        Prod.snd = some [2, 2, 0] ∧
    ([2, 2, 0] : List ℚ) ≠ [1, 2, 0] := by
  refine ⟨by decide, by decide, by decide, by decide⟩

/-- C7 (amended): when each surface's own abscissae are strictly increasing
(no duplicated node within a surface), `MsesInterp` evaluated at a surface's
own original nodes returns that surface's original ordinates exactly. -/
theorem MsesInterp_exact_at_nodes (xm ym : List ℚ) (i : ℕ)
    (hx : FindLE xm = some i) (hlen : ym.length = xm.length)
    (hup : ((xm.take (i + 1)).reverse).Chain' (· < ·))
    (hlo : (xm.drop (i + 1)).Chain' (· < ·)) :
    (MsesInterp ((xm.take (i + 1)).reverse) xm ym).map Prod.fst =
        some ((ym.take (i + 1)).reverse) ∧
    (MsesInterp (xm.drop (i + 1)) xm ym).map Prod.snd =
        some (ym.drop (i + 1)) := by
  have hib := FindLE_lt_length hx
  have hsx : MsesSplit xm xm =
      some ((xm.take (i + 1)).reverse, xm.drop (i + 1)) := by
    simp [MsesSplit, hx]
  have hsy : MsesSplit xm ym =
      some ((ym.take (i + 1)).reverse, ym.drop (i + 1)) := by
    simp [MsesSplit, hx]
  have hup2 : ((xm.take (i + 1)).reverse).Pairwise (· < ·) :=
    List.chain'_iff_pairwise.mp hup
  have hlo2 : (xm.drop (i + 1)).Pairwise (· < ·) :=
    List.chain'_iff_pairwise.mp hlo
  have hlup : ((ym.take (i + 1)).reverse).length =
      ((xm.take (i + 1)).reverse).length := by
    simp [List.length_take, hlen]
  have hllo : (ym.drop (i + 1)).length = (xm.drop (i + 1)).length := by
    simp [hlen]
  have hupne : (xm.take (i + 1)).reverse ≠ [] := by
    simp only [ne_eq, List.reverse_eq_nil_iff, List.take_eq_nil_iff]
    push_neg
    exact ⟨by omega, by intro hcon; subst hcon; simp at hib⟩
  have hlone : xm.drop (i + 1) ≠ [] := by
    intro hcon
    rw [List.drop_eq_nil_iff] at hcon
    omega
  have hupI : npInterp ((xm.take (i + 1)).reverse) ((xm.take (i + 1)).reverse)
      ((ym.take (i + 1)).reverse) = some ((ym.take (i + 1)).reverse) :=
    npInterp_self _ _ hup2 hlup hupne
  have hloI : npInterp (xm.drop (i + 1)) (xm.drop (i + 1)) (ym.drop (i + 1)) =
      some (ym.drop (i + 1)) :=
    npInterp_self _ _ hlo2 hllo hlone
  have hupX : npInterp ((xm.take (i + 1)).reverse) (xm.drop (i + 1))
      (ym.drop (i + 1)) =
      some (((xm.take (i + 1)).reverse).map fun q =>
        interpOne q ((xm.drop (i + 1)).zip (ym.drop (i + 1)))) :=
    npInterp_some _ _ _ hllo hlone
  have hloX : npInterp (xm.drop (i + 1)) ((xm.take (i + 1)).reverse)
      ((ym.take (i + 1)).reverse) =
      some ((xm.drop (i + 1)).map fun q =>
        interpOne q (((xm.take (i + 1)).reverse).zip ((ym.take (i + 1)).reverse))) :=
    npInterp_some _ _ _ hlup hupne
  constructor
  · simp only [MsesInterp, hsx, hsy, hupI, hupX, Option.map_some']
  · simp only [MsesInterp, hsx, hsy, hloI, hloX, Option.map_some']

/-- C7 (witness): node-exactness on the strictly monotone curve
`xm = [2,1,2]`, `ym = [5,0,7]`. -/
theorem MsesInterp_exact_at_nodes_witness :
    (MsesInterp (([(2:ℚ), 1, 2].take 2).reverse) [(2:ℚ), 1, 2]
        [(5:ℚ), 0, 7]).map Prod.fst =
      some (([(5:ℚ), 0, 7].take 2).reverse) ∧
    (MsesInterp ([(2:ℚ), 1, 2].drop 2) [(2:ℚ), 1, 2] [(5:ℚ), 0, 7]).map
        Prod.snd = some ([(5:ℚ), 0, 7].drop 2) :=
  MsesInterp_exact_at_nodes [(2:ℚ), 1, 2] [(5:ℚ), 0, 7] 1 (by decide)
    (by decide)
    (by norm_num [List.chain'_cons, List.chain'_singleton])
    (by norm_num [List.chain'_cons, List.chain'_singleton])

/-- C9 (counterexample): `MsesSplit` silently accepts paired sequences of
different lengths — on `x = [2,1,2]` (length 3) and `y = [7]` (length 1) it
returns a result instead of raising anything. -/
theorem MsesSplit_length_mismatch_counterexample :
    ([(7:ℚ)] : List ℚ).length ≠ ([(2:ℚ), 1, 2] : List ℚ).length ∧
    MsesSplit [(2:ℚ), 1, 2] [(7:ℚ)] = some ([7], []) := by
  refine ⟨by decide, by decide⟩

/-- C9 (amended): no `LengthMismatchError` exists in the code and the
functions perform no length validation of their own: `MsesSplit` silently
slices `y` at the leading-edge index of `x` whatever `y`'s length;
`MsesInterp` hands a mismatched pair to `numpy.interp`, which rejects it with
a generic `ValueError` (fp and xp not of the same length, modelled `none`)
whenever the paired lengths differ; and `MsesMerge` fails only with a generic
numpy broadcast error when the `y` slice assignments cannot be reconciled. -/
theorem no_length_validation :
    (∀ (x y : List ℚ) (i : ℕ), FindLE x = some i →
        MsesSplit x y = some ((y.take (i + 1)).reverse, y.drop (i + 1))) ∧
    (∀ (xout xm ym : List ℚ) (i : ℕ), FindLE xm = some i →
        ym.length ≠ xm.length → MsesInterp xout xm ym = none) ∧
    MsesMerge [(1:ℚ)] [(2:ℚ)] [(3:ℚ), 4] [(5:ℚ)] = none := by
  refine ⟨fun x y i hx => by simp [MsesSplit, hx], ?_, by decide⟩
  intro xout xm ym i hx hnelen
  have hib := FindLE_lt_length hx
  have hs1 : MsesSplit xm xm =
      some ((xm.take (i + 1)).reverse, xm.drop (i + 1)) := by
    simp [MsesSplit, hx]
  have hs2 : MsesSplit xm ym =
      some ((ym.take (i + 1)).reverse, ym.drop (i + 1)) := by
    simp [MsesSplit, hx]
  by_cases hcase : ym.length < i + 1
  · have hupN : npInterp xout ((xm.take (i + 1)).reverse)
        ((ym.take (i + 1)).reverse) = none := by
      have hdiff : ((ym.take (i + 1)).reverse).length ≠
          ((xm.take (i + 1)).reverse).length := by
        simp only [List.length_reverse, List.length_take]
        omega
      simp only [npInterp]
      rw [if_pos hdiff]
    cases h2 : npInterp xout (xm.drop (i + 1)) (ym.drop (i + 1)) with
    | none => simp [MsesInterp, hs1, hs2, hupN, h2]
    | some v => simp [MsesInterp, hs1, hs2, hupN, h2]
  · have hloN : npInterp xout (xm.drop (i + 1)) (ym.drop (i + 1)) = none := by
      have hdiff : ((ym.drop (i + 1))).length ≠ ((xm.drop (i + 1))).length := by
        simp only [List.length_drop]
        omega
      simp only [npInterp]
      rw [if_pos hdiff]
    cases h2 : npInterp xout ((xm.take (i + 1)).reverse)
        ((ym.take (i + 1)).reverse) with
    | none => simp [MsesInterp, hs1, hs2, hloN, h2]
    | some v => simp [MsesInterp, hs1, hs2, hloN, h2]

/-- C9 (witness): `MsesSplit` processes the mismatched pair `x = [2,1,2]`,
`y = [9,9]` without any error, while `MsesInterp` on the mismatched pair
`x = [2,1,2]`, `y = [7]` fails with numpy's generic length error. -/
theorem no_length_validation_witness :
    MsesSplit [(2:ℚ), 1, 2] [(9:ℚ), 9] =
        some ((([(9:ℚ), 9].take 2).reverse), [(9:ℚ), 9].drop 2) ∧
    MsesInterp [(0:ℚ)] [(2:ℚ), 1, 2] [(7:ℚ)] = none :=
  ⟨no_length_validation.1 [(2:ℚ), 1, 2] [(9:ℚ), 9] 1 (by decide),
   no_length_validation.2.1 [(0:ℚ)] [(2:ℚ), 1, 2] [(7:ℚ)] 1 (by decide)
     (by decide)⟩

/-- C10 (counterexample): `MsesSplit` returns an empty lower surface rather
than raising anything, on `x = [2,1,2]` with the shorter paired sequence
`y = [5,4]`. -/
theorem MsesSplit_empty_surface_counterexample :
    MsesSplit [(2:ℚ), 1, 2] [(5:ℚ), 4] = some ([4, 5], []) := by decide

/-- C10 (amended): no `EmptySurfaceError` exists in the code: `MsesSplit` can
return an empty surface silently (see the counterexample); for paired
sequences of equal length both split surfaces are in fact always non-empty,
and `MsesMerge` applied to an empty lower surface fails with a generic
`IndexError` (modelled `none`), not a dedicated error. -/
theorem no_empty_surface_error :
    (∀ (x y : List ℚ) (i : ℕ) (up lo : List ℚ), FindLE x = some i →
        y.length = x.length → MsesSplit x y = some (up, lo) →
        up ≠ [] ∧ lo ≠ []) ∧
    MsesMerge [] [(1:ℚ)] [] [(1:ℚ)] = none := by
  refine ⟨?_, by decide⟩
  intro x y i up lo hx hlen hs
  have hib := FindLE_lt_length hx
  have hs2 : MsesSplit x y =
      some ((y.take (i + 1)).reverse, y.drop (i + 1)) := by
    simp [MsesSplit, hx]
  rw [hs2] at hs
  obtain ⟨hup, hlo⟩ := Prod.mk.injEq .. ▸ Option.some.inj hs
  constructor
  · rw [← hup]
    simp only [ne_eq, List.reverse_eq_nil_iff, List.take_eq_nil_iff]
    push_neg
    refine ⟨by omega, ?_⟩
    intro hcon
    subst hcon
    simp at hlen
    omega
  · rw [← hlo]
    intro hcon
    rw [List.drop_eq_nil_iff] at hcon
    omega

/-- C10 (witness): non-empty surfaces for the equal-length pair
`x = [2,1,2]`, `y = [4,5,6]`. -/
theorem no_empty_surface_error_witness :
    ([5, 4] : List ℚ) ≠ [] ∧ ([6] : List ℚ) ≠ [] :=
  no_empty_surface_error.1 [(2:ℚ), 1, 2] [(4:ℚ), 5, 6] 1 [5, 4] [6]
    (by decide) (by decide) (by decide)
